import Mathlib

/-!
Verification of the heads-up no-limit hold'em decision engine
(`server_fullgame.cjs`, `lib/action_model.cjs`, `lib/infoset_v1.cjs`,
`scripts/train_blueprint_v1_postflop.cjs`).

Shallow-embedding conventions:
* JS numbers holding chip amounts, equities and probabilities are modelled as
  exact rationals (`ℚ`); the source only adds, subtracts, multiplies by small
  constants, divides, and compares, so the arithmetic is exact.
* `Math.max`, `Math.min` and `Math.abs` are embedded as the `if`-based
  `jsMax`, `jsMin`, `jsAbs` so that all definitions evaluate by kernel
  reduction.
* The two seats are indexed by `Bool`: `false` is seat 0, `true` is seat 1.
* `state.history` (a string the source appends to) is a `List Char` kept in
  reverse order: the most recent action character is the head.
* Logging calls (`warnDiag`, diagnostic counters) have no effect on the game
  state and are omitted.
-/

namespace Poker

/-- `Math.max` on two numbers. -/
def jsMax (a b : ℚ) : ℚ := if a ≤ b then b else a

/-- `Math.min` on two numbers. -/
def jsMin (a b : ℚ) : ℚ := if a ≤ b then a else b

/-- `Math.abs`. -/
def jsAbs (a : ℚ) : ℚ := if 0 ≤ a then a else -a

theorem jsMax_eq_max (a b : ℚ) : jsMax a b = max a b := by
  unfold jsMax
  split_ifs with h
  · exact (max_eq_right h).symm
  · exact (max_eq_left (le_of_not_le h)).symm

theorem jsMin_eq_min (a b : ℚ) : jsMin a b = min a b := by
  unfold jsMin
  split_ifs with h
  · exact (min_eq_left h).symm
  · exact (min_eq_right (le_of_not_le h)).symm

theorem jsMax_le_iff (a b c : ℚ) : jsMax a b ≤ c ↔ a ≤ c ∧ b ≤ c := by
  rw [jsMax_eq_max]; exact max_le_iff

theorem le_jsMax_left (a b : ℚ) : a ≤ jsMax a b := by
  rw [jsMax_eq_max]; exact le_max_left a b

/-- The eight abstract actions, in the index order of `A` in
`lib/action_model.cjs` (FOLD=0 .. ALL_IN=7). -/
inductive Act
  | fold
  | check
  | call
  | betHalf
  | betPot
  | raiseHalf
  | raisePot
  | allIn
  deriving DecidableEq

/-- Numeric index of an action (the value of `A.<name>` in the source). -/
def Act.idx : Act → Fin 8
  | .fold => 0
  | .check => 1
  | .call => 2
  | .betHalf => 3
  | .betPot => 4
  | .raiseHalf => 5
  | .raisePot => 6
  | .allIn => 7

/-- Read the component of a per-seat pair for seat `p`. -/
def pget (x : ℚ × ℚ) (p : Bool) : ℚ :=
  match p with
  | false => x.1
  | true => x.2

/-- Write the component of a per-seat pair for seat `p`. -/
def pset (x : ℚ × ℚ) (p : Bool) (v : ℚ) : ℚ × ℚ :=
  match p with
  | false => (v, x.2)
  | true => (x.1, v)

/-- Read the component of a per-seat `Bool` pair for seat `p`. -/
def bget (x : Bool × Bool) (p : Bool) : Bool :=
  match p with
  | false => x.1
  | true => x.2

/-- Write the component of a per-seat `Bool` pair for seat `p`. -/
def bset (x : Bool × Bool) (p : Bool) (v : Bool) : Bool × Bool :=
  match p with
  | false => (v, x.2)
  | true => (x.1, v)

/-- Integer seat number of a `Bool` seat (used for the `winner` field). -/
def seatIdx (p : Bool) : ℤ :=
  match p with
  | false => 0
  | true => 1

/-- The betting state of a live hand, mirroring the `state` object built by
`newHand` in `server_fullgame.cjs`.  The session-level fields (`board`,
`fullBoard`, hole cards, score) live in `Sess` below; the redundant street
name string (always `streets[streetIdx]`, kept in sync by `newHand` and
`advanceStreet`) is represented by `streetIdx` alone. -/
structure GameState where
  streetIdx : ℕ
  pot : ℚ
  currentBet : ℚ
  commit : ℚ × ℚ
  stack : ℚ × ℚ
  raises : ℤ
  consecutiveChecks : ℕ
  acted : Bool × Bool
  history : List Char
  terminal : Bool
  winner : ℤ
  toAct : Bool
  deriving DecidableEq

/-- The comparison tolerance `1e-9` used throughout the source. -/
def eps : ℚ := 1 / 1000000000

/-- `START_STACK` (default 200). -/
def START_STACK : ℚ := 200

/-- `SMALL_BLIND` (default 1). -/
def SMALL_BLIND : ℚ := 1

/-- `BIG_BLIND` (default 2). -/
def BIG_BLIND : ℚ := 2

/-- `MAX_RAISES` (default 3). -/
def MAX_RAISES : ℤ := 3

/-- `Math.max(0, state.currentBet - state.commit[p])` for the acting seat:
the amount the acting seat must still call. -/
def toCallOf (st : GameState) : ℚ :=
  jsMax 0 (st.currentBet - pget st.commit st.toAct)

/-- `state.stack[p]` for the acting seat. -/
def stackOf (st : GameState) : ℚ := pget st.stack st.toAct

/-- `legalActions(state, maxRaises, _bigBlind)` from `lib/action_model.cjs`
(the `_bigBlind` argument is unused in the source). -/
def legalActions (st : GameState) (maxRaises : ℤ) : List Act :=
  if st.terminal then []
  else
    if toCallOf st ≤ eps then
      Act.check ::
        (if eps < stackOf st then
          (if st.streetIdx = 0 then [Act.raiseHalf, Act.raisePot, Act.allIn]
           else [Act.betHalf, Act.betPot, Act.allIn])
         else [])
    else
      [Act.fold, Act.call] ++
        (if toCallOf st + eps < stackOf st ∧ st.raises < maxRaises then
          [Act.raiseHalf, Act.raisePot]
         else []) ++
        (if toCallOf st + eps < stackOf st then [Act.allIn] else [])

/-- `actionTarget(state, act, bigBlind)` from `lib/action_model.cjs`: the
total chips seat `toAct` must have committed after applying `act`. -/
def actionTarget (st : GameState) (act : Act) (bigBlind : ℚ) : ℚ :=
  match act with
  | .fold => pget st.commit st.toAct
  | .check => pget st.commit st.toAct
  | .call => pget st.commit st.toAct + jsMin (stackOf st) (toCallOf st)
  | .betHalf => pget st.commit st.toAct + jsMin (stackOf st) (jsMax 1 (st.pot * (1 / 2)))
  | .betPot => pget st.commit st.toAct + jsMin (stackOf st) (jsMax 1 st.pot)
  | .raiseHalf =>
    st.currentBet +
      jsMin (stackOf st)
        (if st.streetIdx = 0 then jsMax (toCallOf st * 2) (bigBlind * 2)
         else jsMax (toCallOf st) (jsMax 1 (st.pot * (1 / 2))))
  | .raisePot =>
    st.currentBet +
      jsMin (stackOf st)
        (if st.streetIdx = 0 then jsMax (toCallOf st * 3) (bigBlind * 3)
         else jsMax (toCallOf st) (jsMax 1 st.pot))
  | .allIn => pget st.commit st.toAct + stackOf st

/-- The history character appended in the chip-moving branch of
`applyAction`: the lowercased first letter of `actionNames[act]`. -/
def historyChar : Act → Char
  | .fold => 'f'
  | .check => 'k'
  | .call => 'c'
  | .betHalf => 'b'
  | .betPot => 'b'
  | .raiseHalf => 'r'
  | .raisePot => 'r'
  | .allIn => 'a'

/-- The CALL-to-CHECK normalization at the top of `applyAction`
(`server_fullgame.cjs` line 1257): a CALL with nothing to call is treated as
CHECK before the target is computed. -/
def normAct (st : GameState) (act0 : Act) : Act :=
  if act0 = Act.call ∧ toCallOf st ≤ eps then Act.check else act0

/-- The chip-moving part of `applyAction` (lines 1281-1290): pay
`min(target - commit, stack)`, move it from stack to commit and pot, zero the
check counter, append the history character. -/
def applyChips (st : GameState) (act : Act) : GameState :=
  let p := st.toAct
  let pay := actionTarget st act BIG_BLIND - pget st.commit p
  let realPay := jsMin pay (pget st.stack p)
  { st with stack := pset st.stack p (pget st.stack p - realPay),
            commit := pset st.commit p (pget st.commit p + realPay),
            pot := st.pot + realPay,
            consecutiveChecks := 0,
            history := historyChar act :: st.history }

/-- Closing a bet/raise (or an over-call) in `applyAction`: the new commit
becomes the current bet, the raise counter increments, the acted flags reset
with only the actor marked, and the turn passes. -/
def raiseClose (st1 : GameState) (p : Bool) : GameState :=
  { st1 with currentBet := pget st1.commit p, raises := st1.raises + 1,
             acted := bset (false, false) p true, toAct := !p }

/-- Closing a flat call / short all-in in `applyAction`: the actor is marked
as acted and the turn passes. -/
def callClose (st1 : GameState) (p : Bool) : GameState :=
  { st1 with acted := bset st1.acted p true, toAct := !p }

/-- `applyAction(state, act)` from `server_fullgame.cjs` (lines 1253-1310),
as a pure state transformer.  The source's if-chain on the normalized action
is rendered as a match: FOLD and CHECK return early, every other action moves
chips and then closes as a raise (BET_*/RAISE_*, or CALL/ALL_IN whose new
commit exceeds the current bet) or as a call. -/
def applyAction (st : GameState) (act0 : Act) : GameState :=
  match normAct st act0 with
  | Act.fold =>
    { st with terminal := true, winner := seatIdx (!st.toAct),
              history := 'f' :: st.history, acted := bset st.acted st.toAct true }
  | Act.check =>
    { st with history := 'k' :: st.history,
              consecutiveChecks := st.consecutiveChecks + 1,
              toAct := !st.toAct, acted := bset st.acted st.toAct true }
  | act =>
    if act = Act.call ∨ act = Act.allIn then
      if (applyChips st act).currentBet < pget (applyChips st act).commit st.toAct then
        raiseClose (applyChips st act) st.toAct
      else
        callClose (applyChips st act) st.toAct
    else
      raiseClose (applyChips st act) st.toAct

/-- The `state` part of `newHand` in `server_fullgame.cjs`: blinds posted,
small blind (seat 0) to act preflop. -/
def newHandState : GameState where
  streetIdx := 0
  pot := SMALL_BLIND + BIG_BLIND
  currentBet := BIG_BLIND
  commit := (SMALL_BLIND, BIG_BLIND)
  stack := (START_STACK - SMALL_BLIND, START_STACK - BIG_BLIND)
  raises := 0
  consecutiveChecks := 0
  acted := (false, false)
  history := []
  terminal := false
  winner := -1
  toAct := false

/-- The `state` mutation performed by `advanceStreet` in
`server_fullgame.cjs` (the session's board re-slice touches no chip or
betting field). -/
def advanceStreetState (st : GameState) : GameState :=
  { st with streetIdx := st.streetIdx + 1, currentBet := 0, commit := (0, 0),
            raises := 0, consecutiveChecks := 0, acted := (false, false),
            toAct := false }

/-- `needsStreetAdvance` from `server_fullgame.cjs`: commitments even, the
acting seat owes nothing, and both seats have acted. -/
def needsStreetAdvance (st : GameState) : Prop :=
  jsAbs (pget st.commit false - pget st.commit true) ≤ eps ∧
    jsMax (st.currentBet - pget st.commit st.toAct) 0 ≤ eps ∧
    bget st.acted false = true ∧ bget st.acted true = true

instance (st : GameState) : Decidable (needsStreetAdvance st) := by
  unfold needsStreetAdvance
  infer_instance

/-- One step of the hand state machine: applying an action drawn from
`legalActions`, or advancing the street when the betting round is closed
(the guard `needsStreetAdvance(sess) && sess.state.streetIdx < 3` used by
`playToHuman`). -/
inductive Step : GameState → GameState → Prop
  | act (st : GameState) (a : Act) (ha : a ∈ legalActions st MAX_RAISES) :
      Step st (applyAction st a)
  | advance (st : GameState) (h : needsStreetAdvance st) (h3 : st.streetIdx < 3) :
      Step st (advanceStreetState st)

/-- States reachable from a freshly dealt hand by apply-action and
street-advance steps. -/
def Reach (st : GameState) : Prop :=
  Relation.ReflTransGen Step newHandState st

/-- Total chips in play: pot plus both remaining stacks. -/
def chips (st : GameState) : ℚ :=
  st.pot + pget st.stack false + pget st.stack true

theorem chips_applyChips (st : GameState) (a : Act) :
    chips (applyChips st a) = chips st := by
  unfold applyChips chips
  cases hp : st.toAct <;> simp [hp, pget, pset] <;> ring

theorem chips_raiseClose (st : GameState) (p : Bool) :
    chips (raiseClose st p) = chips st := rfl

theorem chips_callClose (st : GameState) (p : Bool) :
    chips (callClose st p) = chips st := rfl

theorem chips_applyAction (st : GameState) (a : Act) :
    chips (applyAction st a) = chips st := by
  unfold applyAction
  cases hn : normAct st a <;>
    simp only [hn] <;>
    first
      | rfl
      | (split_ifs <;>
          simp only [chips_raiseClose, chips_callClose, chips_applyChips])

theorem chips_advanceStreetState (st : GameState) :
    chips (advanceStreetState st) = chips st := by
  simp [chips, advanceStreetState]

/-- C1: chip conservation along every reachable state. -/
theorem chip_conservation (st : GameState) (h : Reach st) :
    chips st = 2 * START_STACK := by
  induction h with
  | refl =>
    norm_num [chips, newHandState, pget, START_STACK, SMALL_BLIND, BIG_BLIND]
  | tail hsteps step ih =>
    cases step with
    | act a ha => rw [chips_applyAction]; exact ih
    | advance hadv h3 => rw [chips_advanceStreetState]; exact ih

/-- C1 witness: the freshly dealt state is reachable and carries
`2 × START_STACK` chips. -/
theorem chip_conservation_witness : chips newHandState = 2 * START_STACK :=
  chip_conservation newHandState Relation.ReflTransGen.refl

theorem applyChips_raises (st : GameState) (a : Act) :
    (applyChips st a).raises = st.raises := rfl

theorem applyAction_raises_cases (st : GameState) (a : Act) :
    (applyAction st a).raises = st.raises ∨
      (applyAction st a).raises = st.raises + 1 := by
  unfold applyAction
  cases hn : normAct st a <;>
    simp only [hn] <;>
    first
      | exact Or.inl trivial
      | exact Or.inl rfl
      | (split_ifs <;>
          simp [raiseClose, callClose, applyChips_raises])

/-- The raise-cap claim over the reachable states of a fresh hand. -/
def raiseCapClaim : Prop :=
  ∀ st : GameState, Reach st → 0 ≤ st.raises ∧ st.raises ≤ MAX_RAISES

/-- The state after the first counterexample step: SB pot-raises to 8. -/
def cexState1 : GameState where
  streetIdx := 0
  pot := 10
  currentBet := 8
  commit := (8, 2)
  stack := (192, 198)
  raises := 1
  consecutiveChecks := 0
  acted := (true, false)
  history := ['r']
  terminal := false
  winner := -1
  toAct := true

/-- The state after the second counterexample step: BB pot-raises to 26. -/
def cexState2 : GameState where
  streetIdx := 0
  pot := 34
  currentBet := 26
  commit := (8, 26)
  stack := (192, 174)
  raises := 2
  consecutiveChecks := 0
  acted := (false, true)
  history := ['r', 'r']
  terminal := false
  winner := -1
  toAct := false

/-- The state after the third counterexample step: SB pot-raises to 80,
reaching the cap (raises = 3). -/
def cexState3 : GameState where
  streetIdx := 0
  pot := 106
  currentBet := 80
  commit := (80, 26)
  stack := (120, 174)
  raises := 3
  consecutiveChecks := 0
  acted := (true, false)
  history := ['r', 'r', 'r']
  terminal := false
  winner := -1
  toAct := true

/-- The state after the fourth counterexample step: BB moves all-in to 200;
the over-call increments raises to 4 > MAX_RAISES. -/
def cexState4 : GameState where
  streetIdx := 0
  pot := 280
  currentBet := 200
  commit := (80, 200)
  stack := (120, 0)
  raises := 4
  consecutiveChecks := 0
  acted := (false, true)
  history := ['a', 'r', 'r', 'r']
  terminal := false
  winner := -1
  toAct := false

theorem cexStep1 : applyAction newHandState Act.raisePot = cexState1 := by
  simp only [applyAction, normAct, toCallOf, stackOf, applyChips, raiseClose, callClose,
    actionTarget, historyChar, newHandState, cexState1, pget, pset, bget, bset, jsMax,
    jsMin, eps, BIG_BLIND, SMALL_BLIND, START_STACK]
  norm_num

theorem cexStep2 : applyAction cexState1 Act.raisePot = cexState2 := by
  simp only [applyAction, normAct, toCallOf, stackOf, applyChips, raiseClose, callClose,
    actionTarget, historyChar, cexState1, cexState2, pget, pset, bget, bset, jsMax,
    jsMin, eps, BIG_BLIND, SMALL_BLIND, START_STACK]
  norm_num

theorem cexStep3 : applyAction cexState2 Act.raisePot = cexState3 := by
  simp only [applyAction, normAct, toCallOf, stackOf, applyChips, raiseClose, callClose,
    actionTarget, historyChar, cexState2, cexState3, pget, pset, bget, bset, jsMax,
    jsMin, eps, BIG_BLIND, SMALL_BLIND, START_STACK]
  norm_num

theorem cexStep4 : applyAction cexState3 Act.allIn = cexState4 := by
  simp only [applyAction, normAct, toCallOf, stackOf, applyChips, raiseClose, callClose,
    actionTarget, historyChar, cexState3, cexState4, pget, pset, bget, bset, jsMax,
    jsMin, eps, BIG_BLIND, SMALL_BLIND, START_STACK]
  norm_num

theorem cexLegal1 : Act.raisePot ∈ legalActions newHandState MAX_RAISES := by
  simp only [legalActions, toCallOf, stackOf, newHandState, pget, jsMax, eps, MAX_RAISES,
    SMALL_BLIND, BIG_BLIND, START_STACK]
  norm_num

theorem cexLegal2 : Act.raisePot ∈ legalActions cexState1 MAX_RAISES := by
  simp only [legalActions, toCallOf, stackOf, cexState1, pget, jsMax, eps, MAX_RAISES]
  norm_num

theorem cexLegal3 : Act.raisePot ∈ legalActions cexState2 MAX_RAISES := by
  simp only [legalActions, toCallOf, stackOf, cexState2, pget, jsMax, eps, MAX_RAISES]
  norm_num

theorem cexLegal4 : Act.allIn ∈ legalActions cexState3 MAX_RAISES := by
  simp only [legalActions, toCallOf, stackOf, cexState3, pget, jsMax, eps, MAX_RAISES]
  norm_num

theorem cexState4_reachable : Reach cexState4 := by
  have s1 : Step newHandState cexState1 := cexStep1 ▸ Step.act newHandState Act.raisePot cexLegal1
  have s2 : Step cexState1 cexState2 := cexStep2 ▸ Step.act cexState1 Act.raisePot cexLegal2
  have s3 : Step cexState2 cexState3 := cexStep3 ▸ Step.act cexState2 Act.raisePot cexLegal3
  have s4 : Step cexState3 cexState4 := cexStep4 ▸ Step.act cexState3 Act.allIn cexLegal4
  exact Relation.ReflTransGen.tail
    (Relation.ReflTransGen.tail
      (Relation.ReflTransGen.tail
        (Relation.ReflTransGen.tail Relation.ReflTransGen.refl s1) s2) s3) s4

/-- C2 counterexample: the raise-count cap `raises ≤ MAX_RAISES` fails on the
reachable state produced by SB pot-raise, BB pot-raise, SB pot-raise (cap
reached), BB all-in: the all-in over-call increments `raises` to 4 although
`MAX_RAISES = 3`. -/
theorem raise_cap_counterexample : ¬raiseCapClaim := by
  intro hclaim
  have h4 := (hclaim cexState4 cexState4_reachable).2
  have hval : cexState4.raises = 4 := rfl
  rw [hval, show MAX_RAISES = 3 from rfl] at h4
  omega

theorem legal_facing_raise_needs_cap (st : GameState) (m : ℤ) (a : Act)
    (ha : a ∈ legalActions st m) (haa : a = Act.raiseHalf ∨ a = Act.raisePot)
    (hface : eps < toCallOf st) : st.raises < m := by
  have h2 : ¬(toCallOf st ≤ eps) := not_le.mpr hface
  unfold legalActions at ha
  by_cases h1 : st.terminal = true
  · rw [if_pos h1] at ha; simp at ha
  · rw [if_neg h1, if_neg h2] at ha
    by_cases h3 : toCallOf st + eps < stackOf st ∧ st.raises < m
    · exact h3.2
    · rw [if_neg h3] at ha
      by_cases h4 : toCallOf st + eps < stackOf st
      · rw [if_pos h4] at ha; rcases haa with rfl | rfl <;> simp at ha
      · rw [if_neg h4] at ha; rcases haa with rfl | rfl <;> simp at ha

theorem raises_nonneg (st : GameState) (h : Reach st) : 0 ≤ st.raises := by
  induction h with
  | refl => decide
  | tail hsteps step ih =>
    cases step with
    | act a ha =>
      rcases applyAction_raises_cases _ a with heq | heq <;> rw [heq] <;> omega
    | advance hadv h3 => exact le_refl 0

/-- C2 amended: for every reachable state the raise counter is nonnegative,
every applied action increments it by at most one, and the facing-bet raise
actions RAISE_HALF / RAISE_POT are only legal while `raises < MAX_RAISES`;
the bound `raises ≤ MAX_RAISES` itself is not an invariant (ALL_IN and
unopened raises are not gated by the cap). -/
theorem raise_cap_amended (st : GameState) (h : Reach st) :
    0 ≤ st.raises ∧
      ∀ a, a ∈ legalActions st MAX_RAISES →
        (applyAction st a).raises ≤ st.raises + 1 ∧
          ((a = Act.raiseHalf ∨ a = Act.raisePot) → eps < toCallOf st →
            st.raises < MAX_RAISES) := by
  refine ⟨raises_nonneg st h, fun a ha => ⟨?_, fun haa hface => ?_⟩⟩
  · rcases applyAction_raises_cases st a with heq | heq <;> rw [heq] <;> omega
  · exact legal_facing_raise_needs_cap st MAX_RAISES a ha haa hface

/-- C2 amended witness: the amended raise-cap facts instantiated at the
freshly dealt hand and the legal action CALL. -/
theorem raise_cap_amended_witness :
    0 ≤ newHandState.raises ∧
      (applyAction newHandState Act.call).raises ≤ newHandState.raises + 1 :=
  ⟨(raise_cap_amended newHandState Relation.ReflTransGen.refl).1,
   ((raise_cap_amended newHandState Relation.ReflTransGen.refl).2 Act.call
      (by simp only [legalActions, toCallOf, stackOf, newHandState, pget, jsMax, eps,
            MAX_RAISES, SMALL_BLIND, BIG_BLIND, START_STACK]
          norm_num)).1⟩

/-- The legal-action characterization exactly as the specification words it
(spec section 4.1): the stack conditions are the strict comparisons
`stack > 0` and `stack > to_call`, with no ε slack. -/
def specLegal (st : GameState) (m : ℤ) : List Act :=
  if toCallOf st ≤ eps then
    Act.check ::
      (if 0 < stackOf st then
        (if st.streetIdx = 0 then [Act.raiseHalf, Act.raisePot, Act.allIn]
         else [Act.betHalf, Act.betPot, Act.allIn])
       else [])
  else
    [Act.fold, Act.call] ++
      (if toCallOf st < stackOf st ∧ st.raises < m then
        [Act.raiseHalf, Act.raisePot]
       else []) ++
      (if toCallOf st < stackOf st then [Act.allIn] else [])

/-- The legal-action characterization claim: on every non-terminal state the
emitted list is exactly the spec-worded set. -/
def legalCharacterizationClaim : Prop :=
  ∀ st : GameState, st.terminal = false →
    legalActions st MAX_RAISES = specLegal st MAX_RAISES

/-- A non-terminal postflop state whose acting stack exceeds the call amount
by only `1e-10`, i.e. by less than the source's `eps = 1e-9` slack. -/
def cexEpsState : GameState where
  streetIdx := 1
  pot := 4
  currentBet := 2
  commit := (1, 2)
  stack := (10000000001 / 10000000000, 198)
  raises := 0
  consecutiveChecks := 0
  acted := (false, true)
  history := []
  terminal := false
  winner := -1
  toAct := false

/-- C4 counterexample: with `stack = to_call + 1e-10` the spec-worded set
contains RAISE_HALF, RAISE_POT and ALL_IN (`stack > to_call`), but the code
emits only FOLD and CALL because it requires `stack > to_call + eps`. -/
theorem legal_characterization_counterexample : ¬legalCharacterizationClaim := by
  intro hclaim
  have h := hclaim cexEpsState rfl
  have hcode : legalActions cexEpsState MAX_RAISES = [Act.fold, Act.call] := by
    simp only [legalActions, toCallOf, stackOf, cexEpsState, pget, jsMax, eps, MAX_RAISES]
    norm_num
  have hspec : specLegal cexEpsState MAX_RAISES =
      [Act.fold, Act.call, Act.raiseHalf, Act.raisePot, Act.allIn] := by
    simp only [specLegal, toCallOf, stackOf, cexEpsState, pget, jsMax, eps, MAX_RAISES]
    norm_num
  rw [hcode, hspec] at h
  simp at h

/-- C4 amended: the legal-action characterization of the claim, with the
stack conditions corrected to the source's ε-slack comparisons
`stack > eps` (unopened) and `stack > to_call + eps` (facing a bet). -/
theorem legal_characterization_amended (st : GameState) (m : ℤ)
    (h : st.terminal = false) :
    (toCallOf st ≤ eps →
      Act.check ∈ legalActions st m ∧
        (Act.allIn ∈ legalActions st m ↔ eps < stackOf st) ∧
        (Act.betHalf ∈ legalActions st m ↔ eps < stackOf st ∧ st.streetIdx ≠ 0) ∧
        (Act.betPot ∈ legalActions st m ↔ eps < stackOf st ∧ st.streetIdx ≠ 0) ∧
        (Act.raiseHalf ∈ legalActions st m ↔ eps < stackOf st ∧ st.streetIdx = 0) ∧
        (Act.raisePot ∈ legalActions st m ↔ eps < stackOf st ∧ st.streetIdx = 0) ∧
        Act.fold ∉ legalActions st m ∧ Act.call ∉ legalActions st m) ∧
      (eps < toCallOf st →
        Act.fold ∈ legalActions st m ∧ Act.call ∈ legalActions st m ∧
          (Act.raiseHalf ∈ legalActions st m ↔
            toCallOf st + eps < stackOf st ∧ st.raises < m) ∧
          (Act.raisePot ∈ legalActions st m ↔
            toCallOf st + eps < stackOf st ∧ st.raises < m) ∧
          (Act.allIn ∈ legalActions st m ↔ toCallOf st + eps < stackOf st) ∧
          Act.check ∉ legalActions st m ∧ Act.betHalf ∉ legalActions st m ∧
          Act.betPot ∉ legalActions st m) := by
  have hT : ¬(st.terminal = true) := by simp [h]
  unfold legalActions
  rw [if_neg hT]
  constructor
  · intro hu
    rw [if_pos hu]
    by_cases hs : eps < stackOf st
    · rw [if_pos hs]
      by_cases hp : st.streetIdx = 0 <;> simp [hp, hs]
    · rw [if_neg hs]
      simp [hs]
  · intro hf
    rw [if_neg (not_le.mpr hf)]
    by_cases hc : toCallOf st + eps < stackOf st
    · by_cases hr : st.raises < m
      · rw [if_pos ⟨hc, hr⟩, if_pos hc]
        simp [hc, hr]
      · rw [if_neg (fun hand => hr hand.2), if_pos hc]
        simp [hc, hr]
    · rw [if_neg (fun hand => hc hand.1), if_neg hc]
      simp [hc]

/-- C4 amended witness: the facing-bet part of the characterization at the
freshly dealt state (SB faces the big blind: to_call = 1 > eps, and
stack = 199 > to_call + eps with raises = 0 < MAX_RAISES). -/
theorem legal_characterization_amended_witness :
    Act.fold ∈ legalActions newHandState MAX_RAISES ∧
      Act.raiseHalf ∈ legalActions newHandState MAX_RAISES := by
  have hface : eps < toCallOf newHandState := by
    norm_num [toCallOf, newHandState, pget, jsMax, eps, BIG_BLIND, SMALL_BLIND]
  have hamend :=
    (legal_characterization_amended newHandState MAX_RAISES rfl).2 hface
  refine ⟨hamend.1, hamend.2.2.1.mpr ⟨?_, ?_⟩⟩
  · norm_num [toCallOf, stackOf, newHandState, pget, jsMax, eps, BIG_BLIND,
      SMALL_BLIND, START_STACK]
  · norm_num [newHandState, MAX_RAISES]

/-- Opponent range belief over the three hand-strength categories
(`initialRangeBelief` and friends in `server_fullgame.cjs`). -/
structure RangeBelief where
  weak : ℚ
  medium : ℚ
  strong : ℚ
  deriving DecidableEq

/-- `initialRangeBelief()`. -/
def initialRangeBelief : RangeBelief := ⟨0.34, 0.33, 0.33⟩

/-- The sum of the belief components after clamping negatives to 0 (the `s`
computed inside `normalizeRangeBelief`). -/
def clampedSum (b : RangeBelief) : ℚ :=
  jsMax 0 b.weak + jsMax 0 b.medium + jsMax 0 b.strong

/-- `normalizeRangeBelief` from `server_fullgame.cjs` (lines 724-741): clamp
negatives to 0; if the mass is ≤ 1e-9 fall back to the initial belief, else
rescale to sum 1. -/
def normalizeRangeBelief (b : RangeBelief) : RangeBelief :=
  if clampedSum b ≤ eps then ⟨0.34, 0.33, 0.33⟩
  else
    ⟨jsMax 0 b.weak / clampedSum b, jsMax 0 b.medium / clampedSum b,
      jsMax 0 b.strong / clampedSum b⟩

/-- The aggressive-action test in `updateRangeBeliefFromAction`. -/
def isAggressive (act : Act) : Prop :=
  act = Act.betHalf ∨ act = Act.betPot ∨ act = Act.raiseHalf ∨
    act = Act.raisePot ∨ act = Act.allIn

instance (act : Act) : Decidable (isAggressive act) := by
  unfold isAggressive
  infer_instance

/-- The additive deltas of `updateRangeBeliefFromAction` (lines 760-791),
keyed on whether the seat faced a bet (`toCallBefore > 1e-9`). -/
def applyBeliefDelta (b : RangeBelief) (act : Act) (toCallBefore : ℚ) : RangeBelief :=
  if eps < toCallBefore then
    if act = Act.fold then ⟨b.weak + 0.20, b.medium + 0.04, b.strong - 0.24⟩
    else if act = Act.call ∨ act = Act.check then
      ⟨b.weak - 0.05, b.medium + 0.12, b.strong - 0.07⟩
    else if isAggressive act then ⟨b.weak - 0.16, b.medium - 0.04, b.strong + 0.20⟩
    else b
  else
    if act = Act.check then ⟨b.weak + 0.10, b.medium + 0.02, b.strong - 0.12⟩
    else if isAggressive act then ⟨b.weak - 0.12, b.medium - 0.02, b.strong + 0.14⟩
    else b

/-- `updateRangeBeliefFromAction` on a single seat's belief: the stored
belief is first normalized by `ensureRangeBeliefs`, the observed-action delta
is added, and the result is normalized again before being stored back. -/
def updateRangeBeliefFromAction (b : RangeBelief) (act : Act) (toCallBefore : ℚ) :
    RangeBelief :=
  normalizeRangeBelief (applyBeliefDelta (normalizeRangeBelief b) act toCallBefore)

theorem jsMax_zero_nonneg (a : ℚ) : 0 ≤ jsMax 0 a := by
  unfold jsMax
  split_ifs with h
  · exact h
  · exact le_refl 0

theorem normalizeRangeBelief_spec (b : RangeBelief) :
    0 ≤ (normalizeRangeBelief b).weak ∧ 0 ≤ (normalizeRangeBelief b).medium ∧
      0 ≤ (normalizeRangeBelief b).strong ∧
      (normalizeRangeBelief b).weak + (normalizeRangeBelief b).medium +
        (normalizeRangeBelief b).strong = 1 := by
  unfold normalizeRangeBelief
  split_ifs with h
  · norm_num
  · have hpos : 0 < clampedSum b := by
      have : eps < clampedSum b := not_le.mp h
      have heps : (0 : ℚ) < eps := by norm_num [eps]
      linarith
    refine ⟨div_nonneg (jsMax_zero_nonneg _) hpos.le,
      div_nonneg (jsMax_zero_nonneg _) hpos.le,
      div_nonneg (jsMax_zero_nonneg _) hpos.le, ?_⟩
    rw [div_add_div_same, div_add_div_same]
    exact div_self (by unfold clampedSum at hpos; exact ne_of_gt hpos)

/-- C6: after every opponent-range belief update, for any prior belief, any
observed action and any pre-action call amount, the three components are
nonnegative and sum to 1 within 1e-9 (here: exactly 1), the normalization
clamping negatives to 0 and rescaling. -/
theorem belief_update_normalized (b : RangeBelief) (act : Act) (toCallBefore : ℚ) :
    0 ≤ (updateRangeBeliefFromAction b act toCallBefore).weak ∧
      0 ≤ (updateRangeBeliefFromAction b act toCallBefore).medium ∧
      0 ≤ (updateRangeBeliefFromAction b act toCallBefore).strong ∧
      |(updateRangeBeliefFromAction b act toCallBefore).weak +
          (updateRangeBeliefFromAction b act toCallBefore).medium +
          (updateRangeBeliefFromAction b act toCallBefore).strong - 1| ≤ eps := by
  unfold updateRangeBeliefFromAction
  obtain ⟨h1, h2, h3, h4⟩ :=
    normalizeRangeBelief_spec (applyBeliefDelta (normalizeRangeBelief b) act toCallBefore)
  refine ⟨h1, h2, h3, ?_⟩
  rw [h4]
  norm_num [eps]

/-- `clamp(x, lo, hi)` from `server_fullgame.cjs`. -/
def clamp (x lo hi : ℚ) : ℚ := jsMax lo (jsMin hi x)

/-- `conditionedEquity(baseEq, oppBelief)` from `server_fullgame.cjs`
(lines 795-800). -/
def conditionedEquity (baseEq : ℚ) (oppBelief : RangeBelief) : ℚ :=
  let b := normalizeRangeBelief oppBelief
  let pressure := b.strong - b.weak
  let adj := -0.11 * pressure + 0.02 * (b.medium - 0.33)
  clamp (baseEq + adj) 0.001 0.999

/-- C9: the belief-conditioned equity equals
`clamp(hs + (−0.11·(strong−weak) + 0.02·(medium−0.33)), 0.001, 0.999)` where
weak, medium, strong are the normalized belief components. -/
theorem conditioned_equity_formula (hs : ℚ) (b : RangeBelief) :
    conditionedEquity hs b =
      clamp
        (hs +
          (-0.11 * ((normalizeRangeBelief b).strong - (normalizeRangeBelief b).weak) +
            0.02 * ((normalizeRangeBelief b).medium - 0.33)))
        0.001 0.999 := rfl

/-- A card as its two-character source string: rank character and suit
character. -/
abbrev Card := Char × Char

/-- `suits = "shdc"`. -/
def suits : List Char := ['s', 'h', 'd', 'c']

/-- `ranks = "23456789TJQKA"`. -/
def ranks : List Char :=
  ['2', '3', '4', '5', '6', '7', '8', '9', 'T', 'J', 'Q', 'K', 'A']

/-- The 52-card deck built by `evalStrength`: suits outer, ranks inner. -/
def fullDeck : List Card :=
  (suits.map (fun s => ranks.map (fun r => (r, s)))).flatten

/-- One `pool.splice(Math.floor(Math.random() * pool.length), 1)[0]` draw,
with the random draw supplied as a natural number taken modulo the pool
size. -/
def drawCard (pool : List Card) (n : ℕ) : Card × List Card :=
  if pool.isEmpty then (('2', 's'), [])
  else (pool.getD (n % pool.length) ('2', 's'), pool.eraseIdx (n % pool.length))

/-- Drawing the `need = 5 - board.length` board-filling cards of one trial;
`k` is the index of the next random draw in the trial's stream. -/
def fillBoard (pool : List Card) (need : ℕ) (draw : ℕ → ℕ) (k : ℕ) : List Card :=
  match need with
  | 0 => []
  | n + 1 =>
    (drawCard pool (draw k)).1 ::
      fillBoard (drawCard pool (draw k)).2 n draw (k + 1)

/-- One Monte-Carlo trial of `evalStrength`: sample the opponent hand (two
splice draws) unless it is given, fill the board to five cards, evaluate both
seven-card hands with the external `poker-evaluator` (abstracted as the
`evalHand` value function), and compare.  The trial's `Math.random` draws are
supplied by `draw`. -/
def trialOutcome (evalHand : List Card → ℤ) (heroHand board avail : List Card)
    (oppHand : Option (List Card)) (draw : ℕ → ℕ) : Ordering :=
  let opp : List Card :=
    match oppHand with
    | some o => o
    | none =>
      (drawCard avail (draw 0)).1 ::
        [(drawCard (drawCard avail (draw 0)).2 (draw 1)).1]
  let pool := avail.filter (fun c => decide (c ∉ opp))
  let boardFill := board ++ fillBoard pool (5 - board.length) draw 2
  compare (evalHand (heroHand ++ boardFill)) (evalHand (opp ++ boardFill))

/-- The win/tie tally of the `evalStrength` trial loop: component one counts
trials the hero won, component two counts ties. -/
def mcTally (evalHand : List Card → ℤ) (heroHand board avail : List Card)
    (oppHand : Option (List Card)) (rand : ℕ → ℕ → ℕ) : ℕ → ℕ × ℕ
  | 0 => (0, 0)
  | t + 1 =>
    let prev := mcTally evalHand heroHand board avail oppHand rand t
    match trialOutcome evalHand heroHand board avail oppHand (rand t) with
    | Ordering.gt => (prev.1 + 1, prev.2)
    | Ordering.eq => (prev.1, prev.2 + 1)
    | Ordering.lt => prev

/-- The record returned by `evalStrength`. -/
structure EqResult where
  eq : ℚ
  samples : ℕ
  err : Option String
  deriving DecidableEq

/-- `evalStrength(heroHand, board, oppHand, trials)` from
`server_fullgame.cjs` (lines 618-654).  The external `poker-evaluator`'s
`evalHand(...).value` is abstracted as the integer-valued `evalHand`
parameter, and the `Math.random` stream as `rand` (trial index, draw index
within the trial). -/
def evalStrength (evalHand : List Card → ℤ) (heroHand board : List Card)
    (oppHand : Option (List Card)) (trials : ℕ) (rand : ℕ → ℕ → ℕ) : EqResult :=
  let avail := fullDeck.filter
    (fun c => decide (c ∉ heroHand ++ board ++ oppHand.getD []))
  if heroHand.length ≠ 2 then ⟨0.5, 0, some "bad_hero"⟩
  else
    let tally := mcTally evalHand heroHand board avail oppHand rand trials
    let total := trials
    ⟨if total ≠ 0 then ((tally.1 : ℚ) + 0.5 * (tally.2 : ℚ)) / (total : ℚ) else 0.5,
      total,
      if total < 20 then some "low_samples" else none⟩

theorem mcTally_le (evalHand : List Card → ℤ) (heroHand board avail : List Card)
    (oppHand : Option (List Card)) (rand : ℕ → ℕ → ℕ) (t : ℕ) :
    (mcTally evalHand heroHand board avail oppHand rand t).1 +
        (mcTally evalHand heroHand board avail oppHand rand t).2 ≤ t := by
  induction t with
  | zero => simp [mcTally]
  | succ n ih =>
    unfold mcTally
    cases trialOutcome evalHand heroHand board avail oppHand (rand n) <;>
      simp only [] <;> omega

/-- C7: for every hero hand, board, optional opponent hand, evaluator,
random stream and trial count `N ≥ 1`, the estimator returns
`eq = (wins + 0.5·ties) / total` with `total = N` samples and `eq ∈ [0, 1]`;
when the hero hand does not have exactly two cards it returns `eq = 0.5`. -/
theorem evalStrength_spec (evalHand : List Card → ℤ) (heroHand board : List Card)
    (oppHand : Option (List Card)) (trials : ℕ) (rand : ℕ → ℕ → ℕ)
    (ht : 1 ≤ trials) :
    (heroHand.length = 2 →
      (evalStrength evalHand heroHand board oppHand trials rand).eq =
          (((mcTally evalHand heroHand board
              (fullDeck.filter
                (fun c => decide (c ∉ heroHand ++ board ++ oppHand.getD [])))
              oppHand rand trials).1 : ℚ) +
            0.5 * ((mcTally evalHand heroHand board
              (fullDeck.filter
                (fun c => decide (c ∉ heroHand ++ board ++ oppHand.getD [])))
              oppHand rand trials).2 : ℚ)) / (trials : ℚ) ∧
        (evalStrength evalHand heroHand board oppHand trials rand).samples = trials ∧
        0 ≤ (evalStrength evalHand heroHand board oppHand trials rand).eq ∧
        (evalStrength evalHand heroHand board oppHand trials rand).eq ≤ 1) ∧
      (heroHand.length ≠ 2 →
        (evalStrength evalHand heroHand board oppHand trials rand).eq = 0.5) := by
  constructor
  · intro h2
    have hne : ¬(heroHand.length ≠ 2) := by omega
    unfold evalStrength
    rw [if_neg hne]
    simp only []
    have htr : trials ≠ 0 := by omega
    rw [if_pos htr]
    set w := (mcTally evalHand heroHand board
      (fullDeck.filter (fun c => decide (c ∉ heroHand ++ board ++ oppHand.getD [])))
      oppHand rand trials).1 with hw
    set ti := (mcTally evalHand heroHand board
      (fullDeck.filter (fun c => decide (c ∉ heroHand ++ board ++ oppHand.getD [])))
      oppHand rand trials).2 with hti
    have hsum : w + ti ≤ trials := mcTally_le _ _ _ _ _ _ _
    have htpos : (0 : ℚ) < (trials : ℚ) := by
      exact_mod_cast Nat.pos_of_ne_zero htr
    refine ⟨by first | rfl | trivial, by first | rfl | trivial, ?_, ?_⟩
    · apply div_nonneg _ htpos.le
      positivity
    · rw [div_le_one htpos]
      have hwq : (w : ℚ) + (ti : ℚ) ≤ (trials : ℚ) := by exact_mod_cast hsum
      have hh : (0 : ℚ) ≤ (ti : ℚ) := by positivity
      nlinarith
  · intro hne
    unfold evalStrength
    rw [if_pos hne]

/-- C7 witness: the estimator bounds at a concrete input (constant
evaluator, hero `AsKs`, empty board, random opponent, one trial). -/
theorem evalStrength_spec_witness :
    0 ≤ (evalStrength (fun _ => 0) [('A', 's'), ('K', 's')] [] none 1
          (fun _ _ => 0)).eq ∧
      (evalStrength (fun _ => 0) [('A', 's'), ('K', 's')] [] none 1
          (fun _ _ => 0)).eq ≤ 1 :=
  ⟨((evalStrength_spec (fun _ => 0) [('A', 's'), ('K', 's')] [] none 1
      (fun _ _ => 0) (by norm_num)).1 rfl).2.2.1,
   ((evalStrength_spec (fun _ => 0) [('A', 's'), ('K', 's')] [] none 1
      (fun _ _ => 0) (by norm_num)).1 rfl).2.2.2⟩

/-- The session score record (`sess.score`). -/
structure Score where
  wins : ℕ
  losses : ℕ
  ties : ℕ
  net : ℚ
  deriving DecidableEq

/-- The result object returned by `settleTerminal`. -/
structure SettleResult where
  label : String
  humanPayoff : ℚ
  winner : ℤ
  terminalType : String
  finalStacks : ℚ × ℚ
  deriving DecidableEq

/-- The session fields `settleTerminal` and `legalActions` read or write. -/
structure Sess where
  humanSeat : Bool
  hero : List Card
  vill : List Card
  board : List Card
  fullBoard : List Card
  state : GameState
  resolved : Bool
  lastResult : Option SettleResult
  score : Score
  deriving DecidableEq

/-- `Number(x.toFixed(2))`, modelled as rounding to the nearest hundredth. -/
def roundTo2 (q : ℚ) : ℚ := (round (q * 100) : ℤ) / 100

/-- The computing branch of `settleTerminal` (`server_fullgame.cjs` lines
1348-1383): resolve the winner (by the abstracted external evaluator if the
hand did not end in a fold decision), award the pot, update the session
score from the human's payoff, build the result record, and mark the session
resolved with the result cached. -/
def settleFresh (evalHand : List Card → ℤ) (s : Sess) : SettleResult × Sess :=
  let wasFold := s.state.history.head? = some 'f'
  let board5 := s.fullBoard.take 5
  let winner : ℤ :=
    if s.state.winner ≠ 0 ∧ s.state.winner ≠ 1 then
      if evalHand (s.vill ++ board5) < evalHand (s.hero ++ board5) then 0
      else if evalHand (s.hero ++ board5) < evalHand (s.vill ++ board5) then 1
      else -1
    else s.state.winner
  let finalStacks : ℚ × ℚ :=
    if winner = 0 then (pget s.state.stack false + s.state.pot, pget s.state.stack true)
    else if winner = 1 then
      (pget s.state.stack false, pget s.state.stack true + s.state.pot)
    else
      (pget s.state.stack false + s.state.pot * 0.5,
        pget s.state.stack true + s.state.pot * 0.5)
  let humanEV := pget finalStacks s.humanSeat - START_STACK
  let newScore : Score :=
    { wins := s.score.wins + (if eps < humanEV then 1 else 0),
      losses := s.score.losses + (if ¬eps < humanEV ∧ humanEV < -eps then 1 else 0),
      ties := s.score.ties + (if ¬eps < humanEV ∧ ¬humanEV < -eps then 1 else 0),
      net := s.score.net + humanEV }
  let result : SettleResult :=
    { label := if 0 < humanEV then "You win" else if humanEV < 0 then "You lose" else "Tie",
      humanPayoff := roundTo2 humanEV,
      winner := winner,
      terminalType := if wasFold then "fold" else "showdown",
      finalStacks := (roundTo2 finalStacks.1, roundTo2 finalStacks.2) }
  (result,
    { s with state := { s.state with winner := winner },
             resolved := true, lastResult := some result, score := newScore })

/-- `settleTerminal(sess)`: if the session is already resolved with a cached
result, return it and leave the session untouched; otherwise compute. -/
def settleTerminal (evalHand : List Card → ℤ) (s : Sess) : SettleResult × Sess :=
  match s.resolved, s.lastResult with
  | true, some r => (r, s)
  | _, _ => settleFresh evalHand s

theorem settleTerminal_post (evalHand : List Card → ℤ) (s : Sess) :
    (settleTerminal evalHand s).2.resolved = true ∧
      (settleTerminal evalHand s).2.lastResult =
        some (settleTerminal evalHand s).1 := by
  unfold settleTerminal
  cases hr : s.resolved <;> cases hl : s.lastResult <;>
    simp [settleFresh] <;> simp [hr, hl]

theorem settleTerminal_of_resolved (evalHand : List Card → ℤ) (s : Sess) (r : SettleResult)
    (h1 : s.resolved = true) (h2 : s.lastResult = some r) :
    settleTerminal evalHand s = (r, s) := by
  unfold settleTerminal
  rw [h1, h2]

/-- C8: the legal-action set of a terminal state is empty, and settling a
terminal hand twice returns the same result as the first settle and leaves
the session (in particular the score) unchanged. -/
theorem terminal_closure_settle_idempotent (evalHand : List Card → ℤ)
    (s : Sess) (m : ℤ) (h : s.state.terminal = true) :
    legalActions s.state m = [] ∧
      settleTerminal evalHand (settleTerminal evalHand s).2 =
        ((settleTerminal evalHand s).1, (settleTerminal evalHand s).2) ∧
      (settleTerminal evalHand (settleTerminal evalHand s).2).2.score =
        (settleTerminal evalHand s).2.score := by
  obtain ⟨h1, h2⟩ := settleTerminal_post evalHand s
  have hsecond := settleTerminal_of_resolved evalHand (settleTerminal evalHand s).2
    (settleTerminal evalHand s).1 h1 h2
  refine ⟨?_, hsecond, by rw [hsecond]⟩
  unfold legalActions
  rw [if_pos h]

/-- A terminal session used to witness C8: seat 1 folded preflop. -/
def cexSettleSess : Sess where
  humanSeat := false
  hero := [('A', 's'), ('K', 's')]
  vill := [('Q', 'h'), ('J', 'h')]
  board := []
  fullBoard := [('2', 'c'), ('7', 'd'), ('9', 's'), ('T', 'h'), ('4', 'c')]
  state := { newHandState with terminal := true, winner := 0, history := ['f'] }
  resolved := false
  lastResult := none
  score := ⟨0, 0, 0, 0⟩

/-- C8 witness: the terminal-closure and settle-idempotence facts at the
concrete terminal session, with a constant external evaluator. -/
theorem terminal_closure_settle_idempotent_witness :
    legalActions cexSettleSess.state MAX_RAISES = [] ∧
      settleTerminal (fun _ => 0) (settleTerminal (fun _ => 0) cexSettleSess).2 =
        ((settleTerminal (fun _ => 0) cexSettleSess).1,
          (settleTerminal (fun _ => 0) cexSettleSess).2) :=
  ⟨(terminal_closure_settle_idempotent (fun _ => 0) cexSettleSess MAX_RAISES rfl).1,
   (terminal_closure_settle_idempotent (fun _ => 0) cexSettleSess MAX_RAISES rfl).2.1⟩

/-- The per-infoset positive-regret mass over the legal actions, the `sum`
computed inside `currentStrategy` in
`scripts/train_blueprint_v1_postflop.cjs` (lines 408-423).  Action arrays of
the trainer are indexed by the numeric action ids `Fin 8`. -/
def legalSum (regrets : Fin 8 → ℚ) (legal : List (Fin 8)) : ℚ :=
  (legal.map (fun a => jsMax 0 (regrets a))).sum

/-- `currentStrategy(node, legal)` from the blueprint trainer:
regret-matching over the legal actions, uniform if no positive mass, zero on
non-legal actions. -/
def currentStrategy (regrets : Fin 8 → ℚ) (legal : List (Fin 8)) : Fin 8 → ℚ :=
  fun a =>
    if a ∈ legal then
      if legalSum regrets legal ≤ 1 / 1000000000000 then
        (1 : ℚ) / (max 1 legal.length : ℕ)
      else jsMax 0 (regrets a) / legalSum regrets legal
    else 0

/-- The node utility `Σ σ(a)·u(a)` accumulated by the traverser branch of
`cfr` (trainer lines 459-467). -/
def nodeUtil (regrets : Fin 8 → ℚ) (legal : List (Fin 8)) (util : Fin 8 → ℚ) : ℚ :=
  (legal.map (fun a => currentStrategy regrets legal a * util a)).sum

/-- The regret update performed by the blueprint trainer (line 468-470):
`for (const a of legal) node.regrets[a] += util[a] - nodeUtil`. -/
def trainerRegretUpdate (regrets : Fin 8 → ℚ) (legal : List (Fin 8))
    (util : Fin 8 → ℚ) : Fin 8 → ℚ :=
  legal.foldl
    (fun acc a => fun c =>
      if c = a then acc c + (util a - nodeUtil regrets legal util) else acc c)
    regrets

/-- The regret update the specification ascribes to the blueprint trainer
(the DCFR rule), for given positive/negative discount multipliers: each
positive accumulated regret is scaled by `posM`, each negative one by `negM`,
before the current iteration's difference is added. -/
def dcfrDiscountedUpdate (posM negM : ℚ) (regrets : Fin 8 → ℚ)
    (legal : List (Fin 8)) (util : Fin 8 → ℚ) : Fin 8 → ℚ :=
  fun a =>
    if a ∈ legal then
      (if 0 ≤ regrets a then regrets a * posM else regrets a * negM) +
        (util a - nodeUtil regrets legal util)
    else regrets a

/-- The C3 claim instantiated at iteration t = 1, where the claimed
multipliers are exactly rational: `1^1.5 / (1^1.5 + 1) = 1/2` and
`1^0.5 / (1^0.5 + 2) = 1/3`. -/
def trainerDCFRClaimIterOne : Prop :=
  ∀ (regrets : Fin 8 → ℚ) (legal : List (Fin 8)) (util : Fin 8 → ℚ),
    trainerRegretUpdate regrets legal util =
      dcfrDiscountedUpdate (1 / 2) (1 / 3) regrets legal util

/-- C3 counterexample: the blueprint trainer does not discount accumulated
regrets.  At a node with one legal action, accumulated regret 1 and zero
utilities, the trainer leaves the regret at 1 while the claimed DCFR rule
(at iteration 1) would scale it to 1/2. -/
theorem trainer_dcfr_counterexample : ¬trainerDCFRClaimIterOne := by
  intro hclaim
  have h := congrFun
    (hclaim (fun a => if a = 0 then 1 else 0) [0] (fun _ => 0)) 0
  simp only [trainerRegretUpdate, dcfrDiscountedUpdate, nodeUtil,
    currentStrategy, legalSum, jsMax, List.foldl, List.map, List.sum] at h
  norm_num at h

theorem foldl_update_pointwise (d : Fin 8 → ℚ) (legal : List (Fin 8))
    (r : Fin 8 → ℚ) (hnodup : legal.Nodup) (b : Fin 8) :
    legal.foldl (fun acc a => fun c => if c = a then acc c + d a else acc c) r b =
      if b ∈ legal then r b + d b else r b := by
  induction legal generalizing r with
  | nil => simp
  | cons a l ih =>
    obtain ⟨hal, hl⟩ := List.nodup_cons.mp hnodup
    rw [List.foldl_cons, ih _ hl]
    by_cases hb : b = a
    · subst hb
      simp [hal]
    · simp [hb, List.mem_cons]

/-- C3 amended: the blueprint trainer's per-visit regret update is the plain
(undiscounted) CFR rule `regrets[a] += u(a) − node_util` on the legal
actions, leaving non-legal actions untouched; no DCFR discounting of the
accumulated regrets takes place in the trainer (the stated discount factors
appear only in the realtime subgame solver). -/
theorem trainer_regret_update_plain (regrets : Fin 8 → ℚ) (legal : List (Fin 8))
    (util : Fin 8 → ℚ) (hnodup : legal.Nodup) (a : Fin 8) :
    (a ∈ legal →
      trainerRegretUpdate regrets legal util a =
        regrets a + (util a - nodeUtil regrets legal util)) ∧
      (a ∉ legal → trainerRegretUpdate regrets legal util a = regrets a) := by
  have h := foldl_update_pointwise
    (fun c => util c - nodeUtil regrets legal util) legal regrets hnodup a
  constructor
  · intro ha
    rw [trainerRegretUpdate, h, if_pos ha]
  · intro ha
    rw [trainerRegretUpdate, h, if_neg ha]

/-- C3 amended witness: the undiscounted update at the concrete one-action
node of the counterexample: the accumulated regret 1 stays 1 (plus the zero
difference). -/
theorem trainer_regret_update_plain_witness :
    trainerRegretUpdate (fun a => if a = 0 then 1 else 0) [0] (fun _ => 0) 0 =
      (if (0 : Fin 8) = 0 then (1 : ℚ) else 0) +
        ((fun _ => (0 : ℚ)) 0 -
          nodeUtil (fun a => if a = 0 then 1 else 0) [0] (fun _ => 0)) :=
  (trainer_regret_update_plain (fun a => if a = 0 then 1 else 0) [0]
    (fun _ => 0) (by simp) 0).1 (by simp)

/-- `RT_PRIOR_WEIGHT` (default 0.65). -/
def RT_PRIOR_WEIGHT : ℚ := 0.65

/-- The clamped prior masses `legal.map(a => Math.max(0, Number(priorProbs?.[a] || 0)))`
inside `toLegalPrior` (`server_fullgame.cjs` lines 891-899). -/
def priorArr (legal : List (Fin 8)) (priorProbs : Option (Fin 8 → ℚ)) : List ℚ :=
  legal.map (fun a => jsMax 0 (match priorProbs with | some f => f a | none => 0))

/-- `toLegalPrior(legal, priorProbs)`: project the prior onto the legal
actions and renormalize; uniform if (nearly) no mass. -/
def toLegalPrior (legal : List (Fin 8)) (priorProbs : Option (Fin 8 → ℚ)) : List ℚ :=
  if (priorArr legal priorProbs).sum ≤ 1 / 1000000000000 then
    legal.map (fun _ => (1 : ℚ) / (max 1 legal.length : ℕ))
  else (priorArr legal priorProbs).map (fun v => v / (priorArr legal priorProbs).sum)

/-- `regrets.map(r => Math.max(0, r))` in the realtime loop. -/
def rtPositive (regrets : List ℚ) : List ℚ := regrets.map (jsMax 0)

/-- The final renormalization of the blended strategy:
`const z = strategy.reduce(...) || 1; strategy.map(v => v / z)`. -/
def rtNormalize (blended : List ℚ) : List ℚ :=
  blended.map (fun v => v / (if blended.sum = 0 then 1 else blended.sum))

/-- The per-iteration strategy of `solveRtSubgameDCFR` (lines 947-959):
regret-matching over positive regrets, blended with the legal prior at
weight `RT_PRIOR_WEIGHT`, renormalized; the prior itself if the positive
mass is ≤ 1e-12.  (The source normalizes `positive` into `strategy` and then
blends in place; the combined elementwise expression is used here.) -/
def rtStrategy (priorLegal regrets : List ℚ) : List ℚ :=
  if (rtPositive regrets).sum ≤ 1 / 1000000000000 then priorLegal
  else
    rtNormalize
      (List.zipWith
        (fun v pr =>
          (1 - RT_PRIOR_WEIGHT) * (v / (rtPositive regrets).sum) +
            RT_PRIOR_WEIGHT * pr)
        (rtPositive regrets) priorLegal)

/-- `nodeUtil` of one realtime iteration: `Σ strategy[i]·util[i]`. -/
def rtNodeUtil (priorLegal regrets util : List ℚ) : ℚ :=
  (List.zipWith (fun a b => a * b) (rtStrategy priorLegal regrets) util).sum

/-- The mutable per-solve arrays of `solveRtSubgameDCFR`. -/
structure RtState where
  regrets : List ℚ
  strategySum : List ℚ
  deriving DecidableEq

/-- One iteration of the realtime DCFR loop (lines 945-978): regret-matching
strategy, utilities, discounted regret update keyed on the sign of the
current difference, strategy-sum accumulation. -/
def rtIterate (priorLegal util : List ℚ) (posDisc negDisc : ℚ) (s : RtState) : RtState :=
  { regrets :=
      List.zipWith
        (fun r u =>
          (if 0 ≤ u - rtNodeUtil priorLegal s.regrets util then r * posDisc
           else r * negDisc) +
            (u - rtNodeUtil priorLegal s.regrets util))
        s.regrets util,
    strategySum :=
      List.zipWith (fun a b => a + b) s.strategySum (rtStrategy priorLegal s.regrets) }

/-- The realtime loop run for a given number of iterations.  The source's
wall-clock budget (`while (Date.now() - start) < maxMs`) is modelled by the
iteration count `n`: the returned value is well-formed for every `n`,
including 0, which is what the budget-expiry cancellation returns. -/
def rtLoop (priorLegal : List ℚ) (utils : ℕ → List ℚ) (posDisc negDisc : ℕ → ℚ) :
    ℕ → RtState → RtState
  | 0, s => s
  | n + 1, s =>
    rtIterate priorLegal (utils (n + 1)) (posDisc (n + 1)) (negDisc (n + 1))
      (rtLoop priorLegal utils posDisc negDisc n s)

/-- The zero-initialized solver state (`legal.map(() => 0)`). -/
def rtInit (legal : List (Fin 8)) : RtState :=
  ⟨legal.map (fun _ => 0), legal.map (fun _ => 0)⟩

/-- The final solver state after `n` iterations.  The per-iteration
utilities `legal.map((act) => subgameLeafEV(...) + noise)` are supplied by
the oracle `utilOracle` (iteration, action): the leaf evaluator and its
Gaussian noise enter the loop only as numbers. -/
def rtFinal (legal : List (Fin 8)) (priorProbs : Option (Fin 8 → ℚ))
    (utilOracle : ℕ → Fin 8 → ℚ) (posDisc negDisc : ℕ → ℚ) (n : ℕ) : RtState :=
  rtLoop (toLegalPrior legal priorProbs) (fun t => legal.map (utilOracle t))
    posDisc negDisc n (rtInit legal)

/-- The averaged strategy over the legal actions (lines 982-991): the
clamped strategy sums renormalized, or the legal prior if (nearly) no mass
accumulated. -/
def rtProbsLegal (legal : List (Fin 8)) (priorProbs : Option (Fin 8 → ℚ))
    (utilOracle : ℕ → Fin 8 → ℚ) (posDisc negDisc : ℕ → ℚ) (n : ℕ) : List ℚ :=
  if ((rtFinal legal priorProbs utilOracle posDisc negDisc n).strategySum.map
        (jsMax 0)).sum ≤ 1 / 1000000000000 then
    toLegalPrior legal priorProbs
  else
    (rtFinal legal priorProbs utilOracle posDisc negDisc n).strategySum.map
      (fun v =>
        jsMax 0 v /
          ((rtFinal legal priorProbs utilOracle posDisc negDisc n).strategySum.map
            (jsMax 0)).sum)

/-- `Number(v.toFixed(6))`, modelled as rounding to the nearest millionth. -/
def roundTo6 (q : ℚ) : ℚ := (round (q * 1000000) : ℤ) / 1000000

/-- `solveRtSubgameDCFR` from `server_fullgame.cjs` (lines 926-998), with
the wall clock replaced by the iteration count `n` and the noisy leaf
utilities by an oracle: `null` on an empty legal list, otherwise the
length-8 probability array `out` (zero-filled, written at the legal action
indices) with each entry rounded to six decimals. -/
def solveRtSubgameDCFR (legal : List (Fin 8)) (priorProbs : Option (Fin 8 → ℚ))
    (utilOracle : ℕ → Fin 8 → ℚ) (posDisc negDisc : ℕ → ℚ) (n : ℕ) :
    Option (List ℚ) :=
  if legal.isEmpty then none
  else
    some
      ((((legal.map Fin.val).zip
            (rtProbsLegal legal priorProbs utilOracle posDisc negDisc n)).foldl
          (fun acc pr => acc.set pr.1 pr.2) (List.replicate 8 (0 : ℚ))).map
        roundTo6)

theorem sum_map_div (l : List ℚ) (s : ℚ) :
    (l.map (fun v => v / s)).sum = l.sum / s := by
  induction l with
  | nil => simp
  | cons a t ih => simp [ih, add_div]

theorem toLegalPrior_length (legal : List (Fin 8)) (p : Option (Fin 8 → ℚ)) :
    (toLegalPrior legal p).length = legal.length := by
  unfold toLegalPrior
  split_ifs <;> simp [priorArr]

theorem toLegalPrior_sum (legal : List (Fin 8)) (p : Option (Fin 8 → ℚ))
    (hne : legal ≠ []) : (toLegalPrior legal p).sum = 1 := by
  have hlen : legal.length ≠ 0 := fun h0 => hne (List.length_eq_zero.mp h0)
  unfold toLegalPrior
  split_ifs with h
  · rw [List.map_const', List.sum_replicate, nsmul_eq_mul,
      Nat.max_eq_right (Nat.one_le_iff_ne_zero.mpr hlen), mul_one_div,
      div_self (by exact_mod_cast hlen)]
  · rw [sum_map_div]
    refine div_self (ne_of_gt ?_)
    calc (0 : ℚ) < 1 / 1000000000000 := by norm_num
      _ < (priorArr legal p).sum := not_le.mp h

theorem toLegalPrior_nonneg (legal : List (Fin 8)) (p : Option (Fin 8 → ℚ)) :
    ∀ x ∈ toLegalPrior legal p, 0 ≤ x := by
  unfold toLegalPrior
  split_ifs with h
  · intro x hx
    obtain ⟨a, _, rfl⟩ := List.mem_map.mp hx
    positivity
  · intro x hx
    obtain ⟨v, hv, rfl⟩ := List.mem_map.mp hx
    have hvn : 0 ≤ v := by
      obtain ⟨a, _, rfl⟩ := List.mem_map.mp hv
      exact jsMax_zero_nonneg _
    have hs : 0 < (priorArr legal p).sum :=
      lt_trans (by norm_num) (not_le.mp h)
    exact div_nonneg hvn hs.le

theorem rtNormalize_length (l : List ℚ) : (rtNormalize l).length = l.length := by
  simp [rtNormalize]

theorem rtStrategy_length (priorLegal regrets : List ℚ) (L : ℕ)
    (hp : priorLegal.length = L) (hr : regrets.length = L) :
    (rtStrategy priorLegal regrets).length = L := by
  unfold rtStrategy
  split_ifs with h
  · exact hp
  · rw [rtNormalize_length, List.length_zipWith, rtPositive, List.length_map, hp, hr,
      min_self]

theorem rtIterate_lengths (priorLegal util : List ℚ) (pd nd : ℚ) (s : RtState) (L : ℕ)
    (hp : priorLegal.length = L) (hu : util.length = L)
    (hr : s.regrets.length = L) (hs : s.strategySum.length = L) :
    (rtIterate priorLegal util pd nd s).regrets.length = L ∧
      (rtIterate priorLegal util pd nd s).strategySum.length = L := by
  constructor
  · rw [rtIterate, List.length_zipWith, hr, hu, min_self]
  · rw [rtIterate, List.length_zipWith, hs,
      rtStrategy_length priorLegal s.regrets L hp hr, min_self]

theorem rtLoop_lengths (priorLegal : List ℚ) (utils : ℕ → List ℚ)
    (pd nd : ℕ → ℚ) (n : ℕ) (s : RtState) (L : ℕ)
    (hp : priorLegal.length = L) (hu : ∀ t, (utils t).length = L)
    (hr : s.regrets.length = L) (hs : s.strategySum.length = L) :
    (rtLoop priorLegal utils pd nd n s).regrets.length = L ∧
      (rtLoop priorLegal utils pd nd n s).strategySum.length = L := by
  induction n with
  | zero => exact ⟨hr, hs⟩
  | succ k ih =>
    exact rtIterate_lengths priorLegal (utils (k + 1)) (pd (k + 1)) (nd (k + 1))
      (rtLoop priorLegal utils pd nd k s) L hp (hu (k + 1)) ih.1 ih.2

theorem rtFinal_strategySum_length (legal : List (Fin 8))
    (p : Option (Fin 8 → ℚ)) (u : ℕ → Fin 8 → ℚ) (pd nd : ℕ → ℚ) (n : ℕ) :
    (rtFinal legal p u pd nd n).strategySum.length = legal.length := by
  refine (rtLoop_lengths (toLegalPrior legal p) (fun t => legal.map (u t)) pd nd n
    (rtInit legal) legal.length (toLegalPrior_length legal p) (fun t => ?_) ?_ ?_).2
  · exact List.length_map legal (u t)
  · exact List.length_map legal _
  · exact List.length_map legal _

theorem rtProbsLegal_length (legal : List (Fin 8)) (p : Option (Fin 8 → ℚ))
    (u : ℕ → Fin 8 → ℚ) (pd nd : ℕ → ℚ) (n : ℕ) :
    (rtProbsLegal legal p u pd nd n).length = legal.length := by
  unfold rtProbsLegal
  split_ifs with h
  · exact toLegalPrior_length legal p
  · rw [List.length_map]
    exact rtFinal_strategySum_length legal p u pd nd n

theorem rtProbsLegal_sum (legal : List (Fin 8)) (p : Option (Fin 8 → ℚ))
    (u : ℕ → Fin 8 → ℚ) (pd nd : ℕ → ℚ) (n : ℕ) (hne : legal ≠ []) :
    (rtProbsLegal legal p u pd nd n).sum = 1 := by
  unfold rtProbsLegal
  split_ifs with h
  · exact toLegalPrior_sum legal p hne
  · have hrw :
        (rtFinal legal p u pd nd n).strategySum.map
            (fun v =>
              jsMax 0 v /
                ((rtFinal legal p u pd nd n).strategySum.map (jsMax 0)).sum) =
          ((rtFinal legal p u pd nd n).strategySum.map (jsMax 0)).map
            (fun v =>
              v / ((rtFinal legal p u pd nd n).strategySum.map (jsMax 0)).sum) := by
      rw [List.map_map]
      rfl
    rw [hrw, sum_map_div]
    refine div_self (ne_of_gt ?_)
    calc (0 : ℚ) < 1 / 1000000000000 := by norm_num
      _ < ((rtFinal legal p u pd nd n).strategySum.map (jsMax 0)).sum := not_le.mp h

theorem rtProbsLegal_nonneg (legal : List (Fin 8)) (p : Option (Fin 8 → ℚ))
    (u : ℕ → Fin 8 → ℚ) (pd nd : ℕ → ℚ) (n : ℕ) :
    ∀ x ∈ rtProbsLegal legal p u pd nd n, 0 ≤ x := by
  unfold rtProbsLegal
  split_ifs with h
  · exact toLegalPrior_nonneg legal p
  · intro x hx
    obtain ⟨v, _, rfl⟩ := List.mem_map.mp hx
    have hs : (0 : ℚ) < ((rtFinal legal p u pd nd n).strategySum.map (jsMax 0)).sum :=
      lt_trans (by norm_num) (not_le.mp h)
    exact div_nonneg (jsMax_zero_nonneg _) hs.le

theorem foldl_set_length (pairs : List (ℕ × ℚ)) (init : List ℚ) :
    (pairs.foldl (fun acc pr => acc.set pr.1 pr.2) init).length = init.length := by
  induction pairs generalizing init with
  | nil => rfl
  | cons a t ih => rw [List.foldl_cons, ih, List.length_set]

theorem foldl_set_getD_ne (pairs : List (ℕ × ℚ)) (init : List ℚ) (j : ℕ)
    (h : ∀ pr ∈ pairs, pr.1 ≠ j) :
    (pairs.foldl (fun acc pr => acc.set pr.1 pr.2) init).getD j 0 =
      init.getD j 0 := by
  induction pairs generalizing init with
  | nil => rfl
  | cons a t ih =>
    rw [List.foldl_cons, ih _ (fun pr hpr => h pr (List.mem_cons_of_mem _ hpr))]
    rw [List.getD_eq_getElem?_getD, List.getD_eq_getElem?_getD,
      List.getElem?_set_ne (h a (List.mem_cons_self _ _))]

theorem foldl_set_sum (pairs : List (ℕ × ℚ)) (init : List ℚ)
    (hb : ∀ pr ∈ pairs, pr.1 < init.length)
    (hnd : (pairs.map Prod.fst).Nodup)
    (hz : ∀ pr ∈ pairs, init.getD pr.1 0 = 0) :
    (pairs.foldl (fun acc pr => acc.set pr.1 pr.2) init).sum =
      init.sum + (pairs.map Prod.snd).sum := by
  induction pairs generalizing init with
  | nil => simp
  | cons a t ih =>
    have ha : a.1 < init.length := hb a (List.mem_cons_self _ _)
    have hafst : a.1 ∉ t.map Prod.fst := (List.nodup_cons.mp hnd).1
    have h1 : (init.set a.1 a.2).sum = init.sum + a.2 := by
      rw [List.sum_set', dif_pos ha]
      have hget : init[a.1] = 0 := by
        have := hz a (List.mem_cons_self _ _)
        rwa [List.getD_eq_getElem?_getD, List.getElem?_eq_getElem ha,
          Option.getD_some] at this
      rw [hget]
      ring
    rw [List.foldl_cons, ih (init.set a.1 a.2) ?_ (List.nodup_cons.mp hnd).2 ?_, h1,
      List.map_cons, List.sum_cons]
    · ring
    · intro pr hpr
      rw [List.length_set]
      exact hb pr (List.mem_cons_of_mem _ hpr)
    · intro pr hpr
      have hne : a.1 ≠ pr.1 := by
        intro hcontra
        exact hafst (hcontra ▸ List.mem_map_of_mem Prod.fst hpr)
      rw [List.getD_eq_getElem?_getD, List.getElem?_set_ne hne,
        ← List.getD_eq_getElem?_getD]
      exact hz pr (List.mem_cons_of_mem _ hpr)

theorem roundTo6_zero : roundTo6 0 = 0 := by
  simp [roundTo6]

theorem roundTo6_err (q : ℚ) : |roundTo6 q - q| ≤ 1 / 2000000 := by
  have h := abs_sub_round (q * 1000000)
  rw [abs_sub_comm] at h
  have heq : roundTo6 q - q = ((round (q * 1000000) : ℚ) - q * 1000000) / 1000000 := by
    rw [roundTo6]
    ring
  rw [heq, abs_div, show |(1000000 : ℚ)| = 1000000 from by norm_num,
    div_le_iff₀ (by norm_num : (0 : ℚ) < 1000000)]
  linarith

theorem sum_map_round_err (l : List ℚ) :
    |(l.map roundTo6).sum - l.sum| ≤ (l.length : ℚ) * (1 / 2000000) := by
  induction l with
  | nil => simp
  | cons a t ih =>
    simp only [List.map_cons, List.sum_cons, List.length_cons]
    have step : |roundTo6 a + (t.map roundTo6).sum - (a + t.sum)| ≤
        1 / 2000000 + (t.length : ℚ) * (1 / 2000000) := by
      have htri : |roundTo6 a + (t.map roundTo6).sum - (a + t.sum)| ≤
          |roundTo6 a - a| + |(t.map roundTo6).sum - t.sum| := by
        have : roundTo6 a + (t.map roundTo6).sum - (a + t.sum) =
            (roundTo6 a - a) + ((t.map roundTo6).sum - t.sum) := by ring
        rw [this]
        exact abs_add _ _
      exact htri.trans (add_le_add (roundTo6_err a) ih)
    calc |roundTo6 a + (t.map roundTo6).sum - (a + t.sum)|
        ≤ 1 / 2000000 + (t.length : ℚ) * (1 / 2000000) := step
      _ = ((t.length + 1 : ℕ) : ℚ) * (1 / 2000000) := by push_cast; ring

/-- The realtime-subgame output claim as stated: on a non-empty legal list
the solver returns a length-8 probability vector whose entries sum to 1 and
vanish at non-legal indices, for every iteration budget (including an
immediately expired one). -/
def rtOutputClaim : Prop :=
  ∀ (legal : List (Fin 8)) (priorProbs : Option (Fin 8 → ℚ))
    (utilOracle : ℕ → Fin 8 → ℚ) (posDisc negDisc : ℕ → ℚ) (n : ℕ),
    legal ≠ [] →
      ∃ out : List ℚ,
        solveRtSubgameDCFR legal priorProbs utilOracle posDisc negDisc n =
            some out ∧
          out.length = 8 ∧ out.sum = 1 ∧
          ∀ j : Fin 8, j ∉ legal → out.getD j.val 0 = 0

/-- C5 amended: for every non-empty duplicate-free legal list, every prior,
every leaf-utility oracle, every discount schedule and every iteration count
(including 0, the expired-budget case), the solver returns the six-decimal
rounding of a length-8 vector that is an exact probability vector (sums to
1, nonnegative, zero at non-legal indices); the rounded output is still
zero at non-legal indices, has length 8, and sums to 1 within 4e-6. -/
theorem foldl_set_mem (pairs : List (ℕ × ℚ)) (init : List ℚ) (x : ℚ)
    (hx : x ∈ pairs.foldl (fun acc pr => acc.set pr.1 pr.2) init) :
    x ∈ init ∨ x ∈ pairs.map Prod.snd := by
  induction pairs generalizing init with
  | nil => exact Or.inl hx
  | cons a t ih =>
    rw [List.foldl_cons] at hx
    rcases ih (init.set a.1 a.2) hx with h | h
    · rcases List.mem_or_eq_of_mem_set h with h2 | h2
      · exact Or.inl h2
      · exact Or.inr (h2 ▸ List.mem_map_of_mem Prod.snd (List.mem_cons_self a t))
    · exact Or.inr (List.mem_cons_of_mem _ (by simpa using h))

theorem rt_output_amended (legal : List (Fin 8)) (priorProbs : Option (Fin 8 → ℚ))
    (utilOracle : ℕ → Fin 8 → ℚ) (posDisc negDisc : ℕ → ℚ) (n : ℕ)
    (hne : legal ≠ []) (hnodup : legal.Nodup) :
    ∃ pre : List ℚ,
      solveRtSubgameDCFR legal priorProbs utilOracle posDisc negDisc n =
          some (pre.map roundTo6) ∧
        pre.length = 8 ∧ pre.sum = 1 ∧ (∀ x ∈ pre, 0 ≤ x) ∧
        (∀ j : Fin 8, j ∉ legal → pre.getD j.val 0 = 0) ∧
        (∀ j : Fin 8, j ∉ legal → (pre.map roundTo6).getD j.val 0 = 0) ∧
        |(pre.map roundTo6).sum - 1| ≤ 1 / 250000 := by
  have hprobslen : (rtProbsLegal legal priorProbs utilOracle posDisc negDisc n).length =
      legal.length := rtProbsLegal_length legal priorProbs utilOracle posDisc negDisc n
  have hmaplen : (legal.map Fin.val).length =
      (rtProbsLegal legal priorProbs utilOracle posDisc negDisc n).length := by
    rw [List.length_map, hprobslen]
  have hfst : (((legal.map Fin.val).zip
      (rtProbsLegal legal priorProbs utilOracle posDisc negDisc n)).map Prod.fst) =
      legal.map Fin.val :=
    List.map_fst_zip _ _ (le_of_eq hmaplen)
  have hsnd : (((legal.map Fin.val).zip
      (rtProbsLegal legal priorProbs utilOracle posDisc negDisc n)).map Prod.snd) =
      rtProbsLegal legal priorProbs utilOracle posDisc negDisc n :=
    List.map_snd_zip _ _ (le_of_eq hmaplen.symm)
  set pairs := (legal.map Fin.val).zip
    (rtProbsLegal legal priorProbs utilOracle posDisc negDisc n) with hpairs
  set pre := pairs.foldl (fun acc pr => acc.set pr.1 pr.2)
    (List.replicate 8 (0 : ℚ)) with hpre
  have hlen : pre.length = 8 := by
    rw [hpre, foldl_set_length, List.length_replicate]
  have hsum : pre.sum = 1 := by
    rw [hpre, foldl_set_sum _ _ ?_ ?_ ?_, hsnd,
      rtProbsLegal_sum legal priorProbs utilOracle posDisc negDisc n hne]
    · simp [List.sum_replicate]
    · intro pr hpr
      rw [List.length_replicate]
      have h1 : pr.1 ∈ legal.map Fin.val := (List.of_mem_zip hpr).1
      obtain ⟨a, ha, haeq⟩ := List.mem_map.mp h1
      rw [← haeq]
      exact a.isLt
    · rw [hfst]
      exact hnodup.map Fin.val_injective
    · intro pr hpr
      rw [List.getD_eq_getElem?_getD, List.getElem?_replicate]
      split <;> rfl
  have hzeroAt : ∀ j : Fin 8, j ∉ legal → pre.getD j.val 0 = 0 := by
    intro j hj
    rw [hpre, foldl_set_getD_ne _ _ _ ?_]
    · rw [List.getD_eq_getElem?_getD, List.getElem?_replicate]
      split <;> rfl
    · intro pr hpr
      have h1 : pr.1 ∈ legal.map Fin.val := (List.of_mem_zip hpr).1
      obtain ⟨a, ha, haeq⟩ := List.mem_map.mp h1
      intro heq
      have haj : a = j := Fin.val_injective (by rw [haeq, heq])
      exact hj (haj ▸ ha)
  refine ⟨pre, ?_, hlen, hsum, ?_, hzeroAt, ?_, ?_⟩
  · unfold solveRtSubgameDCFR
    rw [if_neg (by simp [List.isEmpty_iff, hne])]
  · intro x hx
    rcases foldl_set_mem pairs _ x hx with h | h
    · exact le_of_eq (List.eq_of_mem_replicate h).symm
    · rw [hsnd] at h
      exact rtProbsLegal_nonneg legal priorProbs utilOracle posDisc negDisc n x h
  · intro j hj
    have hj8 : j.val < pre.length := by
      rw [hlen]
      exact j.isLt
    have hval : pre[j.val] = 0 := by
      have := hzeroAt j hj
      rwa [List.getD_eq_getElem?_getD, List.getElem?_eq_getElem hj8,
        Option.getD_some] at this
    rw [List.getD_eq_getElem?_getD, List.getElem?_map,
      List.getElem?_eq_getElem hj8, Option.map_some', Option.getD_some, hval,
      roundTo6_zero]
  · have h1 := sum_map_round_err pre
    rw [hlen] at h1
    push_cast at h1
    rw [← hsum]
    linarith

/-- C5 counterexample: with three legal actions, no prior mass and an
expired budget (zero iterations), every entry of the returned vector is the
six-decimal rounding of 1/3, so the entries sum to 999999/1000000 ≠ 1. -/
theorem rt_output_counterexample : ¬rtOutputClaim := by
  intro hclaim
  obtain ⟨out, heq, hlen, hsum, hzero⟩ :=
    hclaim [1, 3, 7] none (fun _ _ => 0) (fun _ => 0) (fun _ => 0) 0 (by simp)
  have hval : solveRtSubgameDCFR [1, 3, 7] none (fun _ _ => 0) (fun _ => 0)
      (fun _ => 0) 0 =
      some [0, 333333 / 1000000, 0, 333333 / 1000000, 0, 0, 0, 333333 / 1000000] := by
    unfold solveRtSubgameDCFR rtProbsLegal rtFinal rtLoop rtInit toLegalPrior priorArr
    norm_num [jsMax, roundTo6, round_eq, List.replicate]
    norm_num [List.set]
  rw [hval] at heq
  have hout : out =
      [0, 333333 / 1000000, 0, 333333 / 1000000, 0, 0, 0, 333333 / 1000000] :=
    (Option.some.inj heq).symm
  rw [hout] at hsum
  simp [List.sum_cons] at hsum
  norm_num at hsum

/-- C5 amended witness: the amended output facts instantiated at the
counterexample's concrete input. -/
theorem rt_output_amended_witness :
    ∃ pre : List ℚ,
      solveRtSubgameDCFR [1, 3, 7] none (fun _ _ => 0) (fun _ => 0) (fun _ => 0) 0 =
          some (pre.map roundTo6) ∧
        pre.length = 8 ∧ pre.sum = 1 ∧ (∀ x ∈ pre, 0 ≤ x) ∧
        (∀ j : Fin 8, j ∉ ([1, 3, 7] : List (Fin 8)) → pre.getD j.val 0 = 0) ∧
        (∀ j : Fin 8, j ∉ ([1, 3, 7] : List (Fin 8)) →
          (pre.map roundTo6).getD j.val 0 = 0) ∧
        |(pre.map roundTo6).sum - 1| ≤ 1 / 250000 :=
  rt_output_amended [1, 3, 7] none (fun _ _ => 0) (fun _ => 0) (fun _ => 0) 0
    (by simp) (by decide)

/-- A JS number as seen by `lib/infoset_v1.cjs`: NaN, the two infinities, or
a finite value (finite doubles are modelled as exact rationals; the claims
proved about the band functions are insensitive to binary rounding because
they only assert ranges and totality). -/
inductive JsNum
  | nan
  | posInf
  | negInf
  | fin (q : ℚ)
  deriving DecidableEq

/-- `Number(x) || 0`: NaN (and 0) are falsy and become 0. -/
def orZero : JsNum → JsNum
  | JsNum.nan => JsNum.fin 0
  | JsNum.fin q => if q = 0 then JsNum.fin 0 else JsNum.fin q
  | x => x

/-- `Math.min` on JS numbers (NaN propagates). -/
def jnMin : JsNum → JsNum → JsNum
  | JsNum.nan, _ => JsNum.nan
  | _, JsNum.nan => JsNum.nan
  | JsNum.negInf, _ => JsNum.negInf
  | _, JsNum.negInf => JsNum.negInf
  | JsNum.posInf, x => x
  | x, JsNum.posInf => x
  | JsNum.fin a, JsNum.fin b => JsNum.fin (min a b)

/-- `Math.max` on JS numbers (NaN propagates). -/
def jnMax : JsNum → JsNum → JsNum
  | JsNum.nan, _ => JsNum.nan
  | _, JsNum.nan => JsNum.nan
  | JsNum.posInf, _ => JsNum.posInf
  | _, JsNum.posInf => JsNum.posInf
  | JsNum.negInf, x => x
  | x, JsNum.negInf => x
  | JsNum.fin a, JsNum.fin b => JsNum.fin (max a b)

/-- Multiplication on JS numbers. -/
def jnMul : JsNum → JsNum → JsNum
  | JsNum.nan, _ => JsNum.nan
  | _, JsNum.nan => JsNum.nan
  | JsNum.fin a, JsNum.fin b => JsNum.fin (a * b)
  | JsNum.posInf, JsNum.fin b =>
    if b = 0 then JsNum.nan else if 0 < b then JsNum.posInf else JsNum.negInf
  | JsNum.negInf, JsNum.fin b =>
    if b = 0 then JsNum.nan else if 0 < b then JsNum.negInf else JsNum.posInf
  | JsNum.fin a, JsNum.posInf =>
    if a = 0 then JsNum.nan else if 0 < a then JsNum.posInf else JsNum.negInf
  | JsNum.fin a, JsNum.negInf =>
    if a = 0 then JsNum.nan else if 0 < a then JsNum.negInf else JsNum.posInf
  | JsNum.posInf, JsNum.posInf => JsNum.posInf
  | JsNum.posInf, JsNum.negInf => JsNum.negInf
  | JsNum.negInf, JsNum.posInf => JsNum.negInf
  | JsNum.negInf, JsNum.negInf => JsNum.posInf

/-- `Math.floor` on JS numbers. -/
def jnFloor : JsNum → JsNum
  | JsNum.nan => JsNum.nan
  | JsNum.posInf => JsNum.posInf
  | JsNum.negInf => JsNum.negInf
  | JsNum.fin q => JsNum.fin ((⌊q⌋ : ℤ) : ℚ)

/-- How a JS number prints inside a template string (finite integers print
without a fractional part). -/
def jsNumStr : JsNum → String
  | JsNum.nan => "NaN"
  | JsNum.posInf => "Infinity"
  | JsNum.negInf => "-Infinity"
  | JsNum.fin q => if q.den = 1 then toString q.num else toString q

/-- `hsBand(hs)` from `lib/infoset_v1.cjs` (lines 157-160):
`Math.max(0, Math.min(9, Math.floor(Math.max(0, Math.min(0.999999, Number(hs) || 0)) * 10)))`. -/
def hsBand (hs : JsNum) : JsNum :=
  jnMax (JsNum.fin 0)
    (jnMin (JsNum.fin 9)
      (jnFloor (jnMul (jnMax (JsNum.fin 0) (jnMin (JsNum.fin 0.999999) (orZero hs)))
        (JsNum.fin 10))))

/-- `sprBand(spr)` from `lib/infoset_v1.cjs` (lines 148-155): non-finite
inputs map to `"8_plus"`, finite ones to one of five bands. -/
def sprBand (spr : JsNum) : String :=
  match spr with
  | JsNum.fin q =>
    if q < 1 then "0_1"
    else if q < 2 then "1_2"
    else if q < 4 then "2_4"
    else if q < 8 then "4_8"
    else "8_plus"
  | _ => "8_plus"

/-- `rankValue(card)`: index in `"23456789TJQKA"` plus 2 (an unknown rank
character gives `indexOf = -1`, hence 1). -/
def rankValue (c : Card) : ℤ :=
  if c.1 ∈ ranks then (ranks.indexOf c.1 : ℤ) + 2 else 1

/-- The number of adjacent gaps ≤ 2 in a sorted rank-value list (the
`closePairs` loop of `isConnected`). -/
def closePairs : List ℤ → ℕ
  | a :: b :: rest => (if b - a ≤ 2 then 1 else 0) + closePairs (b :: rest)
  | _ => 0

/-- The board-texture record of `lib/infoset_v1.cjs` (`texture`). -/
structure Texture where
  paired : Bool
  twoTone : Bool
  monotone : Bool
  connected : Bool
  deriving DecidableEq

/-- `texture(board)`: paired (duplicate rank), two-tone / monotone (suit
count on boards of ≥ 3 cards), connected (≥ 2 close gaps among ≥ 3 distinct
sorted rank values). -/
def texture (board : List Card) : Texture where
  paired := decide (¬(board.map Prod.fst).Nodup)
  twoTone := decide (3 ≤ board.length ∧ (board.map Prod.snd).dedup.length = 2)
  monotone := decide (3 ≤ board.length ∧ (board.map Prod.snd).dedup.length = 1)
  connected :=
    decide (3 ≤ board.length ∧
      3 ≤ (board.map rankValue).dedup.length ∧
      2 ≤ closePairs ((board.map rankValue).dedup.insertionSort (· ≤ ·)))

/-- `textureBits(tex)`: the 4-character bit string. -/
def textureBits (t : Texture) : String :=
  (if t.paired then "1" else "0") ++ (if t.twoTone then "1" else "0") ++
    (if t.monotone then "1" else "0") ++ (if t.connected then "1" else "0")

/-- `positionLabelHU(player)`. -/
def positionLabelHU (player : Bool) : String := if player then "IP" else "OOP"

/-- The street names array. -/
def streets : List String := ["preflop", "flop", "turn", "river"]

/-- The state fields read by `buildInfosetKey` in `lib/infoset_v1.cjs`. -/
structure KeyState where
  street : Option String
  streetIdx : ℕ
  currentBet : ℚ
  commit : ℚ × ℚ
  stack : ℚ × ℚ
  pot : ℚ
  board : List Card
  raises : ℤ

/-- `resolveStreet(state)`: the explicit street name if present, else the
street array at `streetIdx` with `"flop"` as the out-of-range fallback. -/
def resolveStreet (st : KeyState) : String :=
  match st.street with
  | some s => s
  | none => streets.getD st.streetIdx "flop"

/-- `buildInfosetKey({state, player, hs, spr, tex})` from
`lib/infoset_v1.cjs` (lines 172-183). -/
def buildInfosetKey (st : KeyState) (player : Bool) (hs : JsNum)
    (spr : Option JsNum) (tex : Option Texture) : String :=
  resolveStreet st ++ "|" ++ positionLabelHU player ++ "|tex=" ++
    textureBits (match tex with | some t => t | none => texture st.board) ++
    "|spr=" ++
    sprBand
      (match spr with
       | some s => s
       | none =>
         if 0 < st.pot then JsNum.fin (pget st.stack player / jsMax 1 st.pot)
         else JsNum.posInf) ++
    "|" ++
    (if eps < jsMax 0 (st.currentBet - pget st.commit player) then "facingBet"
     else "unopened") ++
    "|r=" ++ toString (max 0 st.raises) ++ "|hs=" ++ jsNumStr (hsBand hs)

theorem hsBand_total (hs : JsNum) :
    ∃ k : ℤ, 0 ≤ k ∧ k ≤ 9 ∧ hsBand hs = JsNum.fin (k : ℚ) := by
  cases hs with
  | nan =>
    exact ⟨0, by norm_num, by norm_num, by norm_num [hsBand, orZero, jnMin, jnMax,
      jnMul, jnFloor]⟩
  | posInf =>
    refine ⟨9, by norm_num, by norm_num, ?_⟩
    show jnMax _ (jnMin _ (jnFloor (jnMul (jnMax _ (jnMin _ _)) _))) = _
    norm_num [hsBand, orZero, jnMin, jnMax, jnMul, jnFloor]
  | negInf =>
    exact ⟨0, by norm_num, by norm_num, by norm_num [hsBand, orZero, jnMin, jnMax,
      jnMul, jnFloor]⟩
  | fin q =>
    refine ⟨max 0 (min 9 ⌊max 0 (min 0.999999 q) * 10⌋), le_max_left 0 _, ?_, ?_⟩
    · omega
    · rcases eq_or_ne q 0 with rfl | hq
      · norm_num [hsBand, orZero, jnMin, jnMax, jnMul, jnFloor]
      · simp only [hsBand, orZero, if_neg hq, jnMin, jnMax, jnMul, jnFloor]
        congr 1
        push_cast
        rfl

theorem sprBand_total (spr : JsNum) :
    sprBand spr ∈ ["0_1", "1_2", "2_4", "4_8", "8_plus"] ∧
      ((spr = JsNum.nan ∨ spr = JsNum.posInf ∨ spr = JsNum.negInf) →
        sprBand spr = "8_plus") := by
  cases spr with
  | fin q =>
    constructor
    · simp only [sprBand]
      split_ifs <;> simp
    · intro h
      rcases h with h | h | h <;> exact absurd h (by simp)
  | nan => exact ⟨by simp [sprBand], fun _ => rfl⟩
  | posInf => exact ⟨by simp [sprBand], fun _ => rfl⟩
  | negInf => exact ⟨by simp [sprBand], fun _ => rfl⟩

/-- C10: for every numeric `hs` and `spr` (NaN, infinite, negative or
out-of-range included), the hand-strength band is an integer in `[0, 9]`,
the SPR band is one of the five band strings (non-finite SPR giving
`"8_plus"`), and `buildInfosetKey` totally produces the canonical
`street|position|tex=…|spr=…|betState|r=…|hs=…` key with those bands. -/
theorem infoset_keying_total (hs spr : JsNum) (st : KeyState) (player : Bool)
    (tex : Option Texture) :
    (∃ k : ℤ, 0 ≤ k ∧ k ≤ 9 ∧ hsBand hs = JsNum.fin (k : ℚ)) ∧
      sprBand spr ∈ ["0_1", "1_2", "2_4", "4_8", "8_plus"] ∧
      ((spr = JsNum.nan ∨ spr = JsNum.posInf ∨ spr = JsNum.negInf) →
        sprBand spr = "8_plus") ∧
      ∃ k : ℤ, 0 ≤ k ∧ k ≤ 9 ∧
        buildInfosetKey st player hs (some spr) tex =
          resolveStreet st ++ "|" ++ positionLabelHU player ++ "|tex=" ++
            textureBits (match tex with | some t => t | none => texture st.board) ++
            "|spr=" ++ sprBand spr ++ "|" ++
            (if eps < jsMax 0 (st.currentBet - pget st.commit player) then
              "facingBet"
             else "unopened") ++
            "|r=" ++ toString (max 0 st.raises) ++ "|hs=" ++ toString k := by
  obtain ⟨k, hk0, hk9, hkey⟩ := hsBand_total hs
  refine ⟨⟨k, hk0, hk9, hkey⟩, (sprBand_total spr).1, (sprBand_total spr).2,
    k, hk0, hk9, ?_⟩
  unfold buildInfosetKey
  rw [hkey]
  simp [jsNumStr, Rat.den_intCast, Rat.num_intCast]

end Poker
